import Mathlib

/-!
Shallow embedding of `inews_monitor.py` (iNews monitor service).

The embedding covers the four core pieces the specification talks about:

* `StoryParser` — the heuristic NSML label parser
  (`extract_ap_tags`, `parse_rotulo_from_ap`, `extract_rotulos`,
  `extract_rotulos_filtrados`, `has_valid_rotulos`, `matches_ap_filter`);
* `ContentManager.sync_content` / `ContentManager._update_index` —
  the reconciliation engine over the durable `{url: tweet_id}` state;
* `RundownWatcher.process` — one feed's poll cycle;
* `INewsMonitor.run_once` — one orchestrator round.

Python strings are modelled as `List Char` internally (wrapped in `String`
at the interfaces).  The Python regexes used by the source are small enough
that each one is translated into an explicit left-to-right scanning
function with the exact leftmost-match semantics of `re.search`: for all
of the regexes in the source, adjacent sub-patterns use disjoint character
classes, so greedy matching with maximal runs needs no backtracking and
the scan below is exact.

External effects (FTP, the Twitter fetch pipeline, the filesystem) are
modelled with explicit oracles and an event trace, one event per observable
side effect of the reconciliation engine.
-/

namespace INews

/-! ## Python character and string primitives -/

/-- Python `\s` / `str.strip()` / `str.split()` whitespace (ASCII range). -/
def pyIsSpace (c : Char) : Bool :=
  c = ' ' || c = '\t' || c = '\n' || c = '\r' || c = '\x0b' || c = '\x0c'

/-- Character class `[A-Za-z_0-9]` of the kind regexes. -/
def isWordChar (c : Char) : Bool :=
  c.isAlpha || c.isDigit || c = '_'

/-- Character class `[A-Za-z_]` (first char of rule (b)'s token). -/
def isWordStart (c : Char) : Bool :=
  c.isAlpha || c = '_'

/-- Character class `[A-Za-z0-9\-]` of the channel regex. -/
def isCanalChar (c : Char) : Bool :=
  c.isAlpha || c.isDigit || c = '-'

/-- Python `str.strip()` on a character list. -/
def stripL (cs : List Char) : List Char :=
  ((cs.dropWhile pyIsSpace).reverse.dropWhile pyIsSpace).reverse

/-- Helper for `str.split()`: accumulates the current word (reversed). -/
def splitWsAux : List Char → List Char → List (List Char)
  | [], [] => []
  | [], acc => [acc.reverse]
  | c :: rest, acc =>
    if pyIsSpace c then
      match acc with
      | [] => splitWsAux rest []
      | _ :: _ => acc.reverse :: splitWsAux rest []
    else splitWsAux rest (c :: acc)

/-- Python `str.split()` with no argument: split on whitespace runs,
    never producing empty words. -/
def pySplit (cs : List Char) : List (List Char) :=
  splitWsAux cs []

/-- Python `str.lower()` (ASCII). -/
def pyLower (s : String) : String :=
  String.mk (s.toList.map Char.toLower)

/-- Python `str.isdigit()` (ASCII): nonempty and all digits. -/
def pyIsDigitStr (cs : List Char) : Bool :=
  !cs.isEmpty && cs.all Char.isDigit

/-- Locate the first occurrence of `pat` in `s`; on success return the text
    before the occurrence and the text after it.  This is the primitive
    behind Python's `in` operator and the lazy `<ap>…</ap>` scan. -/
def splitFirst (pat : List Char) : List Char → Option (List Char × List Char)
  | [] => if pat.isEmpty then some ([], []) else none
  | c :: rest =>
    if pat.isPrefixOf (c :: rest) then some ([], (c :: rest).drop pat.length)
    else
      match splitFirst pat rest with
      | some (pre, post) => some (c :: pre, post)
      | none => none

/-- Python `pat in s` (substring containment). -/
def substrContains (pat s : List Char) : Bool :=
  (splitFirst pat s).isSome

/-! ## `StoryParser.extract_ap_tags`

`re.findall(r'<ap>(.*?)</ap>', content, re.DOTALL)`: lazy matching takes,
for each `<ap>` opener, the text up to the nearest following `</ap>`, then
continues scanning after that closer. -/

/-- The opening label marker `<ap>`. -/
def apOpenTag : List Char := "<ap>".toList

/-- The closing label marker `</ap>`. -/
def apCloseTag : List Char := "</ap>".toList

/-- Fuel-indexed scan for the lazy `<ap>…</ap>` matches.  Each iteration
    consumes past one closer, so `length + 1` fuel always suffices
    (`extract_ap_tags_fuel_irrel` below shows any dominating fuel computes
    the same list, and `extract_ap_tags_list_rec` recovers the recursion
    law of `re.findall`). -/
def extract_ap_tags_fuel : Nat → List Char → List (List Char)
  | 0, _ => []
  | fuel + 1, cs =>
    match splitFirst apOpenTag cs with
    | none => []
    | some (_, rest) =>
      match splitFirst apCloseTag rest with
      | none => []
      | some (body, rest2) => body :: extract_ap_tags_fuel fuel rest2

/-- The per-content list of raw `<ap>` tag bodies. -/
def extract_ap_tags_list (cs : List Char) : List (List Char) :=
  extract_ap_tags_fuel (cs.length + 1) cs

/-- `StoryParser.extract_ap_tags`. -/
def extract_ap_tags (content : String) : List String :=
  (extract_ap_tags_list content.toList).map String.mk

/-! ## `StoryParser.parse_rotulo_from_ap`

The heuristic label parser.  Source structure (lines 207–276):

1. blank input → `None`;
2. channel: `re.search(r'\[([A-Za-z0-9\-]+)\]', ap_content)`, and the text
   after the match (stripped) becomes the working remainder;
3. kind (`tipo`): ordered fallback chain of
   rule (a) `re.search(r'--\s+\d+:\s+([A-Za-z_0-9]+)', after_canal)`,
   rule (b) `re.search(r'\d+\s+([A-Za-z_][A-Za-z_0-9]*(?:\s+\d+)?)', after_canal)`,
   rule (c) first word of `after_canal.split()` that is not all digits after
   removing `'-'` and is none of `]`, `[[`, `]]`, `|`, `--`;
4. payload (`contenido`): `re.search(r'\|([^|\(]+)', after_canal)`, stripped
   and whitespace-collapsed, `""` when the regex has no match;
5. return a `Rotulo` iff the kind is nonempty. -/

/-- `Rotulo`: structured label record (`canal`, `tipo`, `contenido`). -/
structure Rotulo where
  canal : String
  tipo : String
  contenido : String
deriving DecidableEq, Repr

/-- Channel scan, regex `\[([A-Za-z0-9\-]+)\]` under `re.search`: at each
    position, a literal `[`, a maximal nonempty run of channel characters and
    a closing `]`.  The class excludes `]`, so greedy maximal runs are exact.
    Returns the captured group and the text after the match end.
    (The source applies `.strip()` to the group; the group has no whitespace
    characters, so that is the identity and is elided.) -/
def canalScan : List Char → Option (List Char × List Char)
  | [] => none
  | c :: rest =>
    if c = '[' then
      let run := rest.takeWhile isCanalChar
      let rem := rest.dropWhile isCanalChar
      if run.isEmpty then canalScan rest
      else
        match rem with
        | ']' :: tail => some (run, tail)
        | _ => canalScan rest
    else canalScan rest

/-- Rule (a)'s pattern after the leading `--`: `\s+\d+:\s+([A-Za-z_0-9]+)`.
    All adjacent classes are disjoint, so maximal runs are exact. -/
def ruleATail (rest : List Char) : Option (List Char) :=
  if (rest.takeWhile pyIsSpace).isEmpty then none
  else
    let r1 := rest.dropWhile pyIsSpace
    if (r1.takeWhile Char.isDigit).isEmpty then none
    else
      let r2 := r1.dropWhile Char.isDigit
      if r2.head? = some ':' then
        let r3 := r2.tail
        if (r3.takeWhile pyIsSpace).isEmpty then none
        else
          let w := (r3.dropWhile pyIsSpace).takeWhile isWordChar
          if w.isEmpty then none else some w
      else none

/-- Rule (a) attempted at one position: `--\s+\d+:\s+([A-Za-z_0-9]+)`. -/
def ruleAAt (s : List Char) : Option (List Char) :=
  if s.head? = some '-' ∧ s.tail.head? = some '-' then ruleATail s.tail.tail
  else none

/-- `re.search` for rule (a): leftmost position at which `ruleAAt` matches.
    (The source applies `.strip()` to the group; the group is a run of word
    characters, so that is the identity and is elided.) -/
def searchA : List Char → Option (List Char)
  | [] => none
  | c :: rest =>
    match ruleAAt (c :: rest) with
    | some w => some w
    | none => searchA rest

/-- Rule (b) attempted at one position:
    `\d+\s+([A-Za-z_][A-Za-z_0-9]*(?:\s+\d+)?)`.  The optional trailing
    `\s+\d+` group is greedy; when it matches, the captured group extends
    through the whitespace and the digit run. -/
def ruleBAt (s : List Char) : Option (List Char) :=
  if (s.takeWhile Char.isDigit).isEmpty then none
  else
    let r1 := s.dropWhile Char.isDigit
    if (r1.takeWhile pyIsSpace).isEmpty then none
    else
      match r1.dropWhile pyIsSpace with
      | [] => none
      | c :: r3 =>
        if isWordStart c then
          let w := r3.takeWhile isWordChar
          let r4 := r3.dropWhile isWordChar
          let ws2 := r4.takeWhile pyIsSpace
          let ds2 := (r4.dropWhile pyIsSpace).takeWhile Char.isDigit
          if ws2.isEmpty || ds2.isEmpty then some (c :: w)
          else some (c :: (w ++ ws2 ++ ds2))
        else none

/-- `re.search` for rule (b): leftmost position at which `ruleBAt` matches.
    (`.strip()` on the group is the identity — it starts with a word-start
    character and ends with a word character or digit — and is elided.) -/
def searchB : List Char → Option (List Char)
  | [] => none
  | c :: rest =>
    match ruleBAt (c :: rest) with
    | some w => some w
    | none => searchB rest

/-- Rule (c): first whitespace-delimited word that is not all digits after
    removing `'-'` (`word.replace('-','').isdigit()`) and is none of the
    structural tokens `]`, `[[`, `]]`, `|`, `--`.  (The trailing `.strip()`
    of the source is the identity on words produced by `split()`.) -/
def ruleC (s : List Char) : Option (List Char) :=
  (pySplit s).find? fun w =>
    !pyIsDigitStr (w.filter (fun c => !(c = '-'))) &&
    !(w = [']']) && !(w = ['[', '[']) && !(w = [']', ']']) &&
    !(w = ['|']) && !(w = ['-', '-'])

/-- The ordered kind fallback chain: rule (a), else rule (b), else rule (c);
    first success wins. -/
def kindChain (s : List Char) : Option (List Char) :=
  match searchA s with
  | some t => some t
  | none =>
    match searchB s with
    | some t => some t
    | none => ruleC s

/-- Payload scan, regex `\|([^|\(]+)` under `re.search`: the first `|`
    followed by at least one character other than `|` and `(`, capturing the
    maximal run of such characters. -/
def contenidoScan : List Char → Option (List Char)
  | [] => none
  | c :: rest =>
    if c = '|' then
      let run := rest.takeWhile fun d => !(d = '|') && !(d = '(')
      if run.isEmpty then contenidoScan rest else some run
    else contenidoScan rest

/-- Payload of a working remainder: the scanned group, `strip`ped and with
    internal whitespace collapsed to single spaces
    (`' '.join(contenido.split())`); `""` when the regex has no match. -/
def contenidoOf (s : List Char) : String :=
  match contenidoScan s with
  | none => ""
  | some run => String.intercalate " " ((pySplit (stripL run)).map String.mk)

/-- The parser's channel value: captured group of the channel regex, or `""`. -/
def canalOf (ap : String) : String :=
  match canalScan ap.toList with
  | some (run, _) => String.mk run
  | none => ""

/-- The parser's working remainder `after_canal`: the text after the channel
    match (or the whole input when there is no channel), stripped. -/
def afterCanalOf (ap : String) : List Char :=
  match canalScan ap.toList with
  | some (_, tail) => stripL tail
  | none => stripL ap.toList

/-- `StoryParser.parse_rotulo_from_ap`. -/
def parse_rotulo_from_ap (ap : String) : Option Rotulo :=
  if (stripL ap.toList).isEmpty then none
  else
    let after := afterCanalOf ap
    let tipo :=
      match kindChain after with
      | some t => String.mk t
      | none => ""
    if tipo = "" then none
    else some ⟨canalOf ap, tipo, contenidoOf after⟩

/-! ## The rotulo pipeline over `<ap>` tags -/

/-- `StoryParser.extract_rotulos`: parse every tag, drop failures. -/
def extract_rotulos (content : String) : List Rotulo :=
  (extract_ap_tags content).filterMap parse_rotulo_from_ap

/-- `StoryParser.TIPOS_VALIDOS`. -/
def TIPOS_VALIDOS : List String := ["X_Total", "X_Faldon"]

/-- `StoryParser.extract_rotulos_filtrados` with the default allow-list:
    keep rotulos whose `tipo` matches case-insensitively. -/
def extract_rotulos_filtrados (content : String) : List Rotulo :=
  (extract_rotulos content).filter fun r =>
    (TIPOS_VALIDOS.map pyLower).contains (pyLower r.tipo)

/-- `StoryParser.has_valid_rotulos`: at least one allow-listed rotulo. -/
def has_valid_rotulos (content : String) : Bool :=
  !(extract_rotulos_filtrados content).isEmpty

/-- `StoryParser.extract_urls_from_story`, also the `urls` field of
    `extract_story_info`: nonempty payloads of the allow-listed rotulos. -/
def extract_urls_from_story (content : String) : List String :=
  ((extract_rotulos_filtrados content).filter fun r => !(r.contenido = "")).map
    Rotulo.contenido

/-- `StoryParser.matches_ap_filter`.  The general-regex branch of the source
    (`re.search(filter_pattern, ap)` guarded by `try/except re.error`, i.e.
    a malformed pattern counts as no match) is modelled by the oracle
    `regexSearch`; the literal-substring attempt and the two special-cased
    patterns are modelled exactly. -/
def matches_ap_filter (regexSearch : String → String → Bool)
    (content filter_pattern : String) : Bool :=
  if filter_pattern = "ROTULOS" || filter_pattern = "" then
    has_valid_rotulos content
  else
    (extract_ap_tags content).any fun ap =>
      substrContains filter_pattern.toList ap.toList || regexSearch filter_pattern ap

/-! ## Association lists: the model of Python `dict`

`ContentManager.state` is a `dict` `{url: tweet_id}`; a Python dict
preserves insertion order, updates a present key in place, and appends a
fresh key at the end.  `RundownWatcher.last_entries` is a `dict`
`{entry_name: hash}` with the same semantics. -/

/-- `dict.get k` / `dict[k]` lookup. -/
def lookupA {α : Type} (st : List (String × α)) (k : String) : Option α :=
  match st with
  | [] => none
  | (k', v) :: rest => if k' = k then some v else lookupA rest k

/-- `dict[k] = v`: update in place when present, append when fresh. -/
def upsertA {α : Type} (st : List (String × α)) (k : String) (v : α) :
    List (String × α) :=
  match st with
  | [] => [(k, v)]
  | (k', v') :: rest =>
    if k' = k then (k, v) :: rest else (k', v') :: upsertA rest k v

/-- `del dict[k]` (no-op when the key is absent; the source only deletes
    keys it has just looked up). -/
def eraseA {α : Type} (st : List (String × α)) (k : String) :
    List (String × α) :=
  match st with
  | [] => []
  | (k', v') :: rest =>
    if k' = k then rest else (k', v') :: eraseA rest k

/-- `list(dict.keys())`. -/
def keysA {α : Type} (st : List (String × α)) : List String :=
  st.map Prod.fst

/-- A dict model is well-formed when its keys are distinct (always true of
    an actual Python dict). -/
abbrev NodupKeys {α : Type} (st : List (String × α)) : Prop :=
  (keysA st).Nodup

/-! ## Filesystem model

A filesystem is a finite set of recorded paths.  A path "exists"
(`os.path.exists`) when it is recorded or is a strict ancestor (by the
`/`-separator convention the source itself builds paths with) of a
recorded path; `shutil.rmtree p` removes `p` and everything below it. -/

/-- Filesystem state: the set of recorded paths. -/
abbrev FS : Type := List String

/-- `os.path.exists`. -/
def pathExists (fs : FS) (p : String) : Bool :=
  fs.any fun q => p = q || (p ++ "/").toList.isPrefixOf q.toList

/-- `shutil.rmtree p` when it succeeds. -/
def rmtreeFS (fs : FS) (p : String) : FS :=
  fs.filter fun q => !(p = q || (p ++ "/").toList.isPrefixOf q.toList)

/-! ## `ContentManager` (the reconciliation engine) -/

/-- `TweetScraper.extract_tweet_id` (ScriptsTwitter/scrape_tweet_api.py):
    `re.search(r'/status/(\d+)', tweet_url)` — leftmost position bearing the
    literal `/status/` followed by at least one digit; the captured group is
    the maximal digit run. -/
def extract_tweet_id_list : List Char → Option (List Char)
  | [] => none
  | c :: rest =>
    let ds := ((c :: rest).drop 8).takeWhile Char.isDigit
    if "/status/".toList.isPrefixOf (c :: rest) && !ds.isEmpty then some ds
    else extract_tweet_id_list rest

/-- `extract_tweet_id` on strings: the derived local identifier, or `none`
    for a malformed reference. -/
def extract_tweet_id (url : String) : Option String :=
  (extract_tweet_id_list url.toList).map String.mk

/-- `os.path.join(download_base, tweet_id)`: the asset directory of one
    tweet. -/
def assetDir (base tid : String) : String := base ++ "/" ++ tid

/-- `os.path.join(download_base, tweet_id, "tweet_api.json")`: the artifact
    whose presence admits a reference into the index. -/
def jsonPath (base tid : String) : String := base ++ "/" ++ tid ++ "/tweet_api.json"

/-- Observable side effects of one `sync_content` call, in order:
    `fetch` = `scraper.run(url)` was invoked; `warn` = malformed reference
    logged and skipped; `delete` = `shutil.rmtree` was attempted on a
    directory; `save` = `_save_state()` persisted the given state;
    `index` = `_update_index()` rewrote `index.csv` with the given bytes. -/
inductive Ev : Type
  | fetch (url : String)
  | warn (url : String)
  | delete (dir : String)
  | save (st : List (String × String))
  | index (content : String)
deriving DecidableEq, Repr

/-- Accumulated machine state threaded through `sync_content`: the in-memory
    `self.state` dict, the filesystem, and the event trace. -/
structure SyncAcc where
  state : List (String × String)
  fs : FS
  events : List Ev
deriving Repr

/-- One iteration of the `new_urls` loop (source lines 581–595): derive the
    identifier; on success run the fetcher (best-effort: its effect on the
    filesystem is the oracle `fetchFS`, and `CustomTweetScraper.run` catches
    its own exceptions, so the outcome never reaches this loop), record the
    mapping and persist; on failure log a warning and leave the state
    untouched. -/
def processNew (fetchFS : String → FS → FS) (acc : SyncAcc) (url : String) :
    SyncAcc :=
  match extract_tweet_id url with
  | some tid =>
    let fs' := fetchFS url acc.fs
    let st' := upsertA acc.state url tid
    ⟨st', fs', acc.events ++ [Ev.fetch url, Ev.save st']⟩
  | none => ⟨acc.state, acc.fs, acc.events ++ [Ev.warn url]⟩

/-- One iteration of the `obsolete_urls` loop (source lines 600–612): look
    up the identifier; when it is present (and truthy) and its asset
    directory exists, attempt a recursive delete whose success is the oracle
    `delOk` (failure is logged and ignored); then in every case remove the
    key and persist. -/
def processObsolete (base : String) (delOk : String → Bool)
    (acc : SyncAcc) (url : String) : SyncAcc :=
  let acc1 :=
    match lookupA acc.state url with
    | some tid =>
      if tid = "" then acc
      else
        let folder := assetDir base tid
        if pathExists acc.fs folder then
          if delOk folder then
            ⟨acc.state, rmtreeFS acc.fs folder, acc.events ++ [Ev.delete folder]⟩
          else ⟨acc.state, acc.fs, acc.events ++ [Ev.delete folder]⟩
        else acc
    | none => acc
  let st' := eraseA acc1.state url
  ⟨st', acc1.fs, acc1.events ++ [Ev.save st']⟩

/-- Step 1 of the reconciliation diff:
    `new_urls = set(current_urls) - set(state.keys())`.  A Python `set`
    iterates in unspecified order; the model fixes the dedup order of
    `current_urls` (all claims below are order-insensitive). -/
def newUrlsOf (st : List (String × String)) (current_urls : List String) :
    List String :=
  current_urls.dedup.filter fun u => !(keysA st).contains u

/-- Step 2 of the reconciliation diff:
    `obsolete_urls = set(state.keys()) - set(current_urls)`. -/
def obsoleteOf (st : List (String × String)) (current_urls : List String) :
    List String :=
  (keysA st).filter fun u => !current_urls.dedup.contains u

/-- The rows `_update_index` writes: the state entries whose
    `tweet_api.json` artifact exists on disk, as
    `(url, absolute json path)` pairs, in state (= insertion) order.
    (`main()` pins the working directory, so `os.path.abspath` is a fixed
    injective renaming; the model uses the joined path itself.) -/
def indexRows (base : String) (st : List (String × String)) (fs : FS) :
    List (String × String) :=
  st.filterMap fun p =>
    if pathExists fs (jsonPath base p.2) then some (p.1, jsonPath base p.2)
    else none

/-- The bytes of `index.csv`: header row, then one `;`-separated row per
    surviving state entry (`csv.writer` with delimiter `;` and `\r\n` line
    terminator; the quoting `csv.writer` would apply to a field containing
    the delimiter is not modelled — the row set and the determinism of the
    bytes, which are what the claims use, are unaffected). -/
def indexContent (base : String) (st : List (String × String)) (fs : FS) :
    String :=
  "URL;RUTA LOCAL\r\n" ++
    String.join ((indexRows base st fs).map fun r => r.1 ++ ";" ++ r.2 ++ "\r\n")

/-- `ContentManager.sync_content` (source lines 564–615), for a manager
    whose scraper class loaded (otherwise the call logs an error and
    returns before any of the logic modelled here).  The fetch pipeline and
    `shutil.rmtree` success are external effects, passed as oracles. -/
def sync_content (base : String) (fetchFS : String → FS → FS)
    (delOk : String → Bool) (st0 : List (String × String)) (fs0 : FS)
    (current_urls : List String) : SyncAcc :=
  let a1 := (newUrlsOf st0 current_urls).foldl (processNew fetchFS) ⟨st0, fs0, []⟩
  let a2 := (obsoleteOf st0 current_urls).foldl (processObsolete base delOk) a1
  ⟨a2.state, a2.fs, a2.events ++ [Ev.index (indexContent base a2.state a2.fs)]⟩

/-! ## `RundownWatcher` (one feed's poll cycle) -/

/-- One entry of a feed listing (`_parse_list_entry` output, restricted to
    the fields `process` reads). -/
structure Entry where
  name : String
  isDir : Bool
deriving DecidableEq, Repr

/-- Per-watcher mutable state: `last_run_time`, the fingerprint dict
    `last_entries` and the reference list `active_urls`. -/
structure WatcherSt where
  lastRunTime : Nat
  lastEntries : List (String × Int)
  activeUrls : List String
deriving DecidableEq, Repr

/-- A change record (`filtered_results` element), reduced to the fields the
    claims mention. -/
structure ChangeRec where
  entryName : String
  watcherName : String
deriving DecidableEq, Repr

/-- Loop body of `RundownWatcher.process` (source lines 680–712) over one
    listed entry.  `read` models `read_story` (`none` = read error);
    `hashFn` models Python's in-process `hash`. -/
def processEntry (read : String → Option String)
    (regexSearch : String → String → Bool) (hashFn : String → Int)
    (apFilter wname : String)
    (acc : List (String × Int) × List String × List ChangeRec) (e : Entry) :
    List (String × Int) × List String × List ChangeRec :=
  if e.name = "" || e.isDir then acc
  else
    match read e.name with
    | none => acc
    | some content =>
      if content = "" then acc
      else if !matches_ap_filter regexSearch content apFilter then acc
      else
        let urls' := acc.2.1 ++ extract_urls_from_story content
        let h := hashFn content
        if lookupA acc.1 e.name = some h then (acc.1, urls', acc.2.2)
        else (upsertA acc.1 e.name h, urls', acc.2.2 ++ [⟨e.name, wname⟩])

/-- `RundownWatcher.process` (source lines 662–715).  `entries` is the
    result of `list_entries`, which returns `[]` both on a listing error and
    on an empty listing; in that case the method returns early and neither
    `last_entries` nor `active_urls` is touched. -/
def processW (now : Nat) (entries : List Entry) (read : String → Option String)
    (regexSearch : String → String → Bool) (hashFn : String → Int)
    (apFilter wname : String) (w : WatcherSt) : WatcherSt × List ChangeRec :=
  if entries.isEmpty then ({ w with lastRunTime := now }, [])
  else
    let r := entries.foldl (processEntry read regexSearch hashFn apFilter wname)
      (w.lastEntries, [], [])
    (⟨now, r.1, r.2.1⟩, r.2.2)

/-! ## `INewsMonitor.run_once` (one orchestrator round) -/

/-- One configured watcher: its identity, feed path, polling interval,
    filter pattern and mutable state. -/
structure MWatcher where
  name : String
  path : String
  interval : Nat
  apFilter : String
  st : WatcherSt
deriving Repr, DecidableEq

/-- `RundownWatcher.is_due`: elapsed time since the last run reaches the
    interval (time modelled by naturals). -/
def isDue (now : Nat) (w : MWatcher) : Bool :=
  w.interval ≤ now - w.st.lastRunTime

/-- `list(total_urls)` for `total_urls = set()` updated with every watcher's
    `active_urls` (the union; Python set order is unspecified and the model
    fixes one — membership is what the claims use). -/
def totalUrls (ws : List MWatcher) : List String :=
  ((ws.map fun w => w.st.activeUrls).flatten).dedup

/-- Body of the `for watcher in self.watchers` loop of `run_once`: a due
    watcher whose `navigate_to` succeeds runs `process` (updating its state
    and contributing change records) and marks the round as having polled;
    any other watcher is left untouched. -/
def pollStep (navOk : String → Bool) (now : Nat)
    (listRes : String → List Entry) (read : String → String → Option String)
    (regexSearch : String → String → Bool) (hashFn : String → Int)
    (w : MWatcher) : MWatcher × List ChangeRec × Bool :=
  if isDue now w && navOk w.path then
    let pr := processW now (listRes w.path) (read w.path) regexSearch hashFn
      w.apFilter w.name w.st
    (({ w with st := pr.1 } : MWatcher), pr.2, true)
  else (w, ([] : List ChangeRec), false)

/-- `INewsMonitor.run_once` (source lines 788–816).  Produces the updated
    watcher list, the accumulated change records, the list of
    `sync_content` invocations (each with its URL-list argument) and the
    result of the reconciliation when one ran.  A watcher polls when it is
    due and `navigate_to` succeeds (`navOk`); when no connection can be
    ensured the round does nothing. -/
def run_once (connected : Bool) (navOk : String → Bool) (now : Nat)
    (listRes : String → List Entry) (read : String → String → Option String)
    (regexSearch : String → String → Bool) (hashFn : String → Int)
    (ws : List MWatcher) (base : String) (fetchFS : String → FS → FS)
    (delOk : String → Bool) (cmState : List (String × String)) (fs : FS) :
    List MWatcher × List ChangeRec × List (List String) × Option SyncAcc :=
  if !connected then (ws, [], [], none)
  else
    let step := ws.map (pollStep navOk now listRes read regexSearch hashFn)
    let ws' := step.map fun t => t.1
    let results := (step.map fun t => t.2.1).flatten
    if step.any fun t => t.2.2 then
      let total := totalUrls ws'
      (ws', results, [total], some (sync_content base fetchFS delOk cmState fs total))
    else (ws', results, [], none)

/-- Recogniser for fetch events (used to state "fetches exactly …"). -/
def isFetchEv : Ev → Bool
  | Ev.fetch _ => true
  | _ => false

/-- Reference A of the C1 scenario. -/
def urlA : String := "https://x.com/a/status/111"

/-- Reference B of the C1 scenario. -/
def urlB : String := "https://x.com/b/status/222"

/-- Reference C of the C1 scenario. -/
def urlC : String := "https://x.com/c/status/333"

/-- Filesystem before the C1 scenario: assets for A and B are materialised. -/
def fsC1 : FS := ["Descargas/111/tweet_api.json", "Descargas/222/tweet_api.json"]

/-- Fetch oracle of the C1 scenario: materialises C's artifact. -/
def fetchC1 : String → FS → FS := fun _ fs => "Descargas/333/tweet_api.json" :: fs

/-- The C1 reconciliation run: known state `{A: 111, B: 222}`, active
    references `{B, C}`. -/
def syncC1 : SyncAcc :=
  sync_content "Descargas" fetchC1 (fun _ => true)
    [(urlA, "111"), (urlB, "222")] fsC1 [urlB, urlC]

/-! ## Scanning lemmas -/

theorem splitFirst_post_lt (pat : List Char) (hp : ¬ pat.isEmpty) :
    ∀ s pre post, splitFirst pat s = some (pre, post) → post.length < s.length := by
  intro s
  induction s with
  | nil =>
    intro pre post h
    simp [splitFirst, hp] at h
  | cons c rest ih =>
    intro pre post h
    simp only [splitFirst] at h
    by_cases hpre : pat.isPrefixOf (c :: rest)
    · rw [if_pos hpre] at h
      obtain ⟨h1, h2⟩ := Prod.mk.injEq _ _ _ _ ▸ (Option.some.injEq _ _ ▸ h)
      subst h2
      have hlen : 0 < pat.length := by
        cases pat with
        | nil => simp [List.isEmpty] at hp
        | cons a l => simp
      calc ((c :: rest).drop pat.length).length = (c :: rest).length - pat.length := by
            simp [List.length_drop]
        _ < (c :: rest).length := by
            have : 0 < (c :: rest).length := by simp
            omega
    · rw [if_neg hpre] at h
      cases hsf : splitFirst pat rest with
      | none => rw [hsf] at h; simp at h
      | some pq =>
        obtain ⟨pre', post'⟩ := pq
        rw [hsf] at h
        simp only [Option.some.injEq, Prod.mk.injEq] at h
        obtain ⟨-, h2⟩ := h
        subst h2
        have := ih pre' post' hsf
        simp only [List.length_cons]
        omega

theorem extract_ap_tags_fuel_irrel :
    ∀ (f1 f2 : Nat) (cs : List Char), cs.length < f1 → cs.length < f2 →
      extract_ap_tags_fuel f1 cs = extract_ap_tags_fuel f2 cs := by
  intro f1
  induction f1 with
  | zero => intro f2 cs h1 h2; omega
  | succ n ih =>
    intro f2 cs h1 h2
    cases f2 with
    | zero => omega
    | succ m =>
      cases hs1 : splitFirst apOpenTag cs with
      | none => simp [extract_ap_tags_fuel, hs1]
      | some pq1 =>
        obtain ⟨pre, rest⟩ := pq1
        cases hs2 : splitFirst apCloseTag rest with
        | none => simp [extract_ap_tags_fuel, hs1, hs2]
        | some pq2 =>
          obtain ⟨body, rest2⟩ := pq2
          have hlt1 : rest.length < cs.length :=
            splitFirst_post_lt apOpenTag (by decide) cs pre rest hs1
          have hlt2 : rest2.length < rest.length :=
            splitFirst_post_lt apCloseTag (by decide) rest body rest2 hs2
          simp only [extract_ap_tags_fuel, hs1, hs2]
          rw [ih m rest2 (by omega) (by omega)]

/-- The recursion law of `re.findall(r'<ap>(.*?)</ap>', …, re.DOTALL)`:
    take the text between the first opener and the nearest following
    closer, then continue after that closer. -/
theorem extract_ap_tags_list_rec (cs : List Char) :
    extract_ap_tags_list cs =
      match splitFirst apOpenTag cs with
      | none => []
      | some pq =>
        match splitFirst apCloseTag pq.2 with
        | none => []
        | some pq2 => pq2.1 :: extract_ap_tags_list pq2.2 := by
  rw [extract_ap_tags_list]
  cases hs1 : splitFirst apOpenTag cs with
  | none => simp [extract_ap_tags_fuel, hs1]
  | some pq1 =>
    obtain ⟨pre, rest⟩ := pq1
    cases hs2 : splitFirst apCloseTag rest with
    | none => simp [extract_ap_tags_fuel, hs1, hs2]
    | some pq2 =>
      obtain ⟨body, rest2⟩ := pq2
      have hlt1 : rest.length < cs.length :=
        splitFirst_post_lt apOpenTag (by decide) cs pre rest hs1
      have hlt2 : rest2.length < rest.length :=
        splitFirst_post_lt apCloseTag (by decide) rest body rest2 hs2
      simp only [extract_ap_tags_fuel, hs1, hs2]
      rw [extract_ap_tags_list,
        extract_ap_tags_fuel_irrel cs.length (rest2.length + 1) rest2
          (by omega) (by omega)]

/-! ## Dictionary lemmas -/

theorem lookupA_upsert {α : Type} (st : List (String × α)) (k : String) (v : α)
    (u : String) :
    lookupA (upsertA st k v) u = if k = u then some v else lookupA st u := by
  induction st with
  | nil => by_cases h : k = u <;> simp [upsertA, lookupA, h]
  | cons p rest ih =>
    obtain ⟨k', v'⟩ := p
    by_cases h1 : k' = k
    · subst h1
      by_cases h2 : k' = u <;> simp [upsertA, lookupA, h2]
    · by_cases h2 : k' = u
      · subst h2
        have : ¬ k = k' := fun h => h1 h.symm
        simp [upsertA, lookupA, h1, this]
      · simp [upsertA, lookupA, h1, h2, ih]

theorem lookupA_erase_ne {α : Type} (st : List (String × α)) (k u : String)
    (h : k ≠ u) : lookupA (eraseA st k) u = lookupA st u := by
  induction st with
  | nil => simp [eraseA, lookupA]
  | cons p rest ih =>
    obtain ⟨k', v'⟩ := p
    by_cases h1 : k' = k
    · subst h1
      simp [eraseA, lookupA, fun hh : k' = u => h hh]
    · simp [eraseA, lookupA, h1]
      by_cases h2 : k' = u <;> simp [h2, ih]

theorem keysA_cons {α : Type} (p : String × α) (rest : List (String × α)) :
    keysA (p :: rest) = p.1 :: keysA rest := rfl

theorem lookupA_none_iff {α : Type} (st : List (String × α)) (u : String) :
    lookupA st u = none ↔ u ∉ keysA st := by
  induction st with
  | nil => simp [lookupA, keysA]
  | cons p rest ih =>
    obtain ⟨k', v'⟩ := p
    by_cases h1 : k' = u
    · subst h1
      simp [lookupA, keysA_cons]
    · have h2 : ¬ u = k' := fun h => h1 h.symm
      simp [lookupA, keysA_cons, h1, ih, h2]

theorem lookupA_isSome_iff {α : Type} (st : List (String × α)) (u : String) :
    (lookupA st u).isSome = true ↔ u ∈ keysA st := by
  rcases h : lookupA st u with _ | v
  · simp only [Option.isSome_none, Bool.false_eq_true, false_iff]
    exact (lookupA_none_iff st u).mp h
  · simp only [Option.isSome_some, true_iff]
    by_contra hmem
    exact absurd h (by simp [(lookupA_none_iff st u).mpr hmem])

theorem lookupA_erase_self {α : Type} (st : List (String × α)) (u : String)
    (h : NodupKeys st) : lookupA (eraseA st u) u = none := by
  induction st with
  | nil => simp [eraseA, lookupA]
  | cons p rest ih =>
    obtain ⟨k', v'⟩ := p
    have hrest : NodupKeys rest := by
      simpa [NodupKeys, keysA] using (List.nodup_cons.mp h).2
    by_cases h1 : k' = u
    · subst h1
      have hk : k' ∉ keysA rest := by
        simpa [keysA] using (List.nodup_cons.mp h).1
      simp [eraseA, (lookupA_none_iff rest k').mpr hk]
    · simp [eraseA, lookupA, h1, ih hrest]

theorem keysA_upsert_superset {α : Type} (st : List (String × α)) (k : String)
    (v : α) (u : String) :
    u ∈ keysA (upsertA st k v) → u ∈ keysA st ∨ u = k := by
  induction st with
  | nil =>
    intro hu
    simp only [upsertA, keysA, List.map_cons, List.map_nil, List.mem_singleton] at hu
    exact Or.inr hu
  | cons p rest ih =>
    intro hu
    obtain ⟨k', v'⟩ := p
    by_cases h1 : k' = k
    · rw [show upsertA ((k', v') :: rest) k v = (k, v) :: rest by
        simp [upsertA, h1]] at hu
      rw [keysA_cons, List.mem_cons] at hu
      rcases hu with h | h
      · exact Or.inr h
      · exact Or.inl (by rw [keysA_cons]; exact List.mem_cons_of_mem _ h)
    · rw [show upsertA ((k', v') :: rest) k v = (k', v') :: upsertA rest k v by
        simp [upsertA, h1]] at hu
      rw [keysA_cons, List.mem_cons] at hu
      rcases hu with h | h
      · exact Or.inl (by rw [keysA_cons, List.mem_cons]; exact Or.inl h)
      · rcases ih h with h2 | h2
        · exact Or.inl (by rw [keysA_cons, List.mem_cons]; exact Or.inr h2)
        · exact Or.inr h2

theorem nodup_upsert {α : Type} (st : List (String × α)) (k : String) (v : α)
    (h : NodupKeys st) : NodupKeys (upsertA st k v) := by
  induction st with
  | nil => simp [upsertA, NodupKeys, keysA]
  | cons p rest ih =>
    obtain ⟨k', v'⟩ := p
    have hrest : NodupKeys rest := by
      simpa [NodupKeys, keysA] using (List.nodup_cons.mp h).2
    have hk : k' ∉ keysA rest := by
      simpa [keysA] using (List.nodup_cons.mp h).1
    by_cases h1 : k' = k
    · subst h1
      simpa [upsertA, NodupKeys, keysA] using h
    · have : NodupKeys (upsertA rest k v) := ih hrest
      have hk2 : k' ∉ keysA (upsertA rest k v) := by
        intro hmem
        rcases keysA_upsert_superset rest k v k' hmem with h2 | h2
        · exact hk h2
        · exact h1 h2
      simp only [upsertA, if_neg h1, NodupKeys, keysA, List.map_cons, List.nodup_cons]
      exact ⟨by simpa [keysA] using hk2, by simpa [NodupKeys, keysA] using this⟩

theorem keysA_erase_subset {α : Type} (st : List (String × α)) (k : String)
    (u : String) (hu : u ∈ keysA (eraseA st k)) : u ∈ keysA st := by
  induction st with
  | nil => simpa [eraseA, keysA] using hu
  | cons p rest ih =>
    obtain ⟨k', v'⟩ := p
    by_cases h1 : k' = k
    · subst h1
      simp [eraseA, keysA] at hu ⊢
      tauto
    · simp [eraseA, keysA, h1] at hu ⊢
      rcases hu with h | h
      · tauto
      · exact Or.inr (by simpa [keysA] using ih (by simpa [keysA] using h))

theorem nodup_erase {α : Type} (st : List (String × α)) (k : String)
    (h : NodupKeys st) : NodupKeys (eraseA st k) := by
  induction st with
  | nil => simp [eraseA, NodupKeys, keysA]
  | cons p rest ih =>
    obtain ⟨k', v'⟩ := p
    have hrest : NodupKeys rest := by
      simpa [NodupKeys, keysA] using (List.nodup_cons.mp h).2
    have hk : k' ∉ keysA rest := by
      simpa [keysA] using (List.nodup_cons.mp h).1
    by_cases h1 : k' = k
    · subst h1
      simpa [eraseA] using hrest
    · simp only [eraseA, if_neg h1, NodupKeys, keysA, List.map_cons, List.nodup_cons]
      refine ⟨?_, by simpa [NodupKeys, keysA] using ih hrest⟩
      intro hmem
      exact hk (keysA_erase_subset rest k k' hmem)

theorem lookupA_eq_of_mem {α : Type} (st : List (String × α)) (u : String)
    (v : α) (h : NodupKeys st) (hmem : (u, v) ∈ st) : lookupA st u = some v := by
  induction st with
  | nil => simp at hmem
  | cons p rest ih =>
    obtain ⟨k', v'⟩ := p
    have hrest : NodupKeys rest := by
      simpa [NodupKeys, keysA] using (List.nodup_cons.mp h).2
    have hk : k' ∉ keysA rest := by
      simpa [keysA] using (List.nodup_cons.mp h).1
    rcases List.mem_cons.mp hmem with h1 | h1
    · obtain ⟨h2, h3⟩ := Prod.mk.injEq _ _ _ _ ▸ h1
      simp [lookupA, h2.symm, h3]
    · by_cases h2 : k' = u
      · subst h2
        exact absurd (by simpa [keysA] using List.mem_map_of_mem Prod.fst h1) hk
      · simp [lookupA, h2, ih hrest h1]

theorem mem_of_lookupA_eq {α : Type} (st : List (String × α)) (u : String)
    (v : α) (h : lookupA st u = some v) : (u, v) ∈ st := by
  induction st with
  | nil => simp [lookupA] at h
  | cons p rest ih =>
    obtain ⟨k', v'⟩ := p
    by_cases h1 : k' = u
    · subst h1
      simp [lookupA] at h
      simp [h]
    · simp [lookupA, h1] at h
      exact List.mem_cons_of_mem _ (ih h)

/-! ## Lemmas about the two reconciliation loops -/

theorem processNew_state_lookup (f : String → FS → FS) (acc : SyncAcc)
    (url u : String) (h : url ≠ u) :
    lookupA (processNew f acc url).state u = lookupA acc.state u := by
  rcases hd : extract_tweet_id url with _ | tid
  · simp [processNew, hd]
  · simp [processNew, hd, lookupA_upsert, h]

theorem foldNew_lookup_not_mem (f : String → FS → FS) (l : List String)
    (acc : SyncAcc) (u : String) (hu : u ∉ l) :
    lookupA (l.foldl (processNew f) acc).state u = lookupA acc.state u := by
  induction l generalizing acc with
  | nil => rfl
  | cons a rest ih =>
    have ha : a ≠ u := fun h => hu (h ▸ List.mem_cons_self a rest)
    have hr : u ∉ rest := fun h => hu (List.mem_cons_of_mem a h)
    rw [List.foldl_cons, ih _ hr, processNew_state_lookup f acc a u ha]

theorem foldNew_lookup_mem (f : String → FS → FS) (l : List String)
    (acc : SyncAcc) (u : String) (hu : u ∈ l) (hnd : l.Nodup) :
    lookupA (l.foldl (processNew f) acc).state u =
      match extract_tweet_id u with
      | some tid => some tid
      | none => lookupA acc.state u := by
  induction l generalizing acc with
  | nil => simp at hu
  | cons a rest ih =>
    have hnr : rest.Nodup := (List.nodup_cons.mp hnd).2
    rcases List.mem_cons.mp hu with h | h
    · subst h
      have hnotin : u ∉ rest := (List.nodup_cons.mp hnd).1
      rw [List.foldl_cons, foldNew_lookup_not_mem f rest _ u hnotin]
      rcases hd : extract_tweet_id u with _ | tid
      · simp [processNew, hd]
      · simp [processNew, hd, lookupA_upsert]
    · have ha : a ≠ u := fun heq => (List.nodup_cons.mp hnd).1 (heq ▸ h)
      rw [List.foldl_cons, ih _ h hnr]
      rcases hd : extract_tweet_id u with _ | tid
      · simp [hd, processNew_state_lookup f acc a u ha]
      · simp [hd]

theorem foldNew_events_mono (f : String → FS → FS) (l : List String)
    (acc : SyncAcc) (e : Ev) (he : e ∈ acc.events) :
    e ∈ (l.foldl (processNew f) acc).events := by
  induction l generalizing acc with
  | nil => exact he
  | cons a rest ih =>
    rw [List.foldl_cons]
    refine ih _ ?_
    rcases hd : extract_tweet_id a with _ | tid <;>
      simp [processNew, hd, List.mem_append, he]

theorem foldNew_nodup (f : String → FS → FS) (l : List String) (acc : SyncAcc)
    (h : NodupKeys acc.state) :
    NodupKeys ((l.foldl (processNew f) acc).state) := by
  induction l generalizing acc with
  | nil => exact h
  | cons a rest ih =>
    rw [List.foldl_cons]
    refine ih _ ?_
    rcases hd : extract_tweet_id a with _ | tid
    · simpa [processNew, hd] using h
    · simpa [processNew, hd] using nodup_upsert acc.state a tid h

theorem foldNew_save_of_mem (f : String → FS → FS) (l : List String)
    (acc : SyncAcc) (u tid : String) (hu : u ∈ l)
    (hd : extract_tweet_id u = some tid) :
    ∃ s, Ev.save s ∈ (l.foldl (processNew f) acc).events ∧
      lookupA s u = some tid := by
  induction l generalizing acc with
  | nil => simp at hu
  | cons a rest ih =>
    rcases List.mem_cons.mp hu with h | h
    · subst h
      refine ⟨upsertA acc.state u tid, ?_, by simp [lookupA_upsert]⟩
      rw [List.foldl_cons]
      refine foldNew_events_mono f rest _ _ ?_
      simp [processNew, hd]
    · rw [List.foldl_cons]
      exact ih _ h

theorem foldNew_warn_of_mem (f : String → FS → FS) (l : List String)
    (acc : SyncAcc) (u : String) (hu : u ∈ l)
    (hd : extract_tweet_id u = none) :
    Ev.warn u ∈ (l.foldl (processNew f) acc).events := by
  induction l generalizing acc with
  | nil => simp at hu
  | cons a rest ih =>
    rcases List.mem_cons.mp hu with h | h
    · subst h
      rw [List.foldl_cons]
      refine foldNew_events_mono f rest _ _ ?_
      simp [processNew, hd]
    · rw [List.foldl_cons]
      exact ih _ h

theorem processObsolete_state (base : String) (delOk : String → Bool)
    (acc : SyncAcc) (url : String) :
    (processObsolete base delOk acc url).state = eraseA acc.state url := by
  simp only [processObsolete]
  rcases lookupA acc.state url with _ | tid
  · rfl
  · by_cases h1 : tid = ""
    · simp [h1]
    · by_cases h2 : pathExists acc.fs (assetDir base tid) = true <;>
        by_cases h3 : delOk (assetDir base tid) = true <;>
        simp [h1, h2, h3]

theorem foldObs_lookup_not_mem (base : String) (delOk : String → Bool)
    (l : List String) (acc : SyncAcc) (u : String) (hu : u ∉ l) :
    lookupA (l.foldl (processObsolete base delOk) acc).state u =
      lookupA acc.state u := by
  induction l generalizing acc with
  | nil => rfl
  | cons a rest ih =>
    have ha : a ≠ u := fun h => hu (h ▸ List.mem_cons_self a rest)
    have hr : u ∉ rest := fun h => hu (List.mem_cons_of_mem a h)
    rw [List.foldl_cons, ih _ hr, processObsolete_state,
      lookupA_erase_ne acc.state a u ha]

theorem foldObs_nodup (base : String) (delOk : String → Bool) (l : List String)
    (acc : SyncAcc) (h : NodupKeys acc.state) :
    NodupKeys ((l.foldl (processObsolete base delOk) acc).state) := by
  induction l generalizing acc with
  | nil => exact h
  | cons a rest ih =>
    rw [List.foldl_cons]
    refine ih _ ?_
    rw [processObsolete_state]
    exact nodup_erase acc.state a h

theorem foldObs_lookup_mem (base : String) (delOk : String → Bool)
    (l : List String) (acc : SyncAcc) (u : String) (hu : u ∈ l) (hl : l.Nodup)
    (h : NodupKeys acc.state) :
    lookupA (l.foldl (processObsolete base delOk) acc).state u = none := by
  induction l generalizing acc with
  | nil => simp at hu
  | cons a rest ih =>
    rcases List.mem_cons.mp hu with h1 | h1
    · subst h1
      have hnotin : u ∉ rest := (List.nodup_cons.mp hl).1
      rw [List.foldl_cons, foldObs_lookup_not_mem base delOk rest _ u hnotin,
        processObsolete_state]
      exact lookupA_erase_self acc.state u h
    · rw [List.foldl_cons]
      refine ih _ h1 (List.nodup_cons.mp hl).2 ?_
      rw [processObsolete_state]
      exact nodup_erase acc.state a h

theorem foldObs_events_mono (base : String) (delOk : String → Bool)
    (l : List String) (acc : SyncAcc) (e : Ev) (he : e ∈ acc.events) :
    e ∈ (l.foldl (processObsolete base delOk) acc).events := by
  induction l generalizing acc with
  | nil => exact he
  | cons a rest ih =>
    rw [List.foldl_cons]
    refine ih _ ?_
    simp only [processObsolete]
    rcases lookupA acc.state a with _ | tid
    · simpa using Or.inl he
    · by_cases h1 : tid = ""
      · simpa [h1] using Or.inl he
      · by_cases h2 : pathExists acc.fs (assetDir base tid) = true <;>
          by_cases h3 : delOk (assetDir base tid) = true <;>
          simp [h1, h2, h3, List.mem_append] <;> tauto

theorem foldObs_save_of_mem (base : String) (delOk : String → Bool)
    (l : List String) (acc : SyncAcc) (u : String) (hu : u ∈ l)
    (h : NodupKeys acc.state) :
    ∃ s, Ev.save s ∈ (l.foldl (processObsolete base delOk) acc).events ∧
      lookupA s u = none := by
  induction l generalizing acc with
  | nil => simp at hu
  | cons a rest ih =>
    rcases List.mem_cons.mp hu with h1 | h1
    · subst h1
      refine ⟨eraseA acc.state u, ?_, lookupA_erase_self acc.state u h⟩
      rw [List.foldl_cons]
      refine foldObs_events_mono base delOk rest _ _ ?_
      have : (processObsolete base delOk acc u).state = eraseA acc.state u :=
        processObsolete_state base delOk acc u
      simp only [processObsolete] at this ⊢
      rcases lookupA acc.state u with _ | tid
      · simpa using Or.inr (by simp)
      · by_cases h1 : tid = ""
        · simpa [h1] using Or.inr (by simp)
        · by_cases h2 : pathExists acc.fs (assetDir base tid) = true <;>
            by_cases h3 : delOk (assetDir base tid) = true <;>
            simp [h1, h2, h3]
    · rw [List.foldl_cons]
      refine ih _ h1 ?_
      rw [processObsolete_state]
      exact nodup_erase acc.state a h

/-! ## The kind fallback chain never yields an empty token -/

theorem splitWsAux_ne_nil :
    ∀ (cs acc : List Char) (w : List Char), w ∈ splitWsAux cs acc → w ≠ [] := by
  intro cs
  induction cs with
  | nil =>
    intro acc w hw
    match acc with
    | [] => simp [splitWsAux] at hw
    | a :: as =>
      simp only [splitWsAux, List.mem_singleton] at hw
      subst hw
      simp
  | cons c rest ih =>
    intro acc w hw
    by_cases hsp : pyIsSpace c = true
    · match acc with
      | [] =>
        simp only [splitWsAux, if_pos hsp] at hw
        exact ih [] w hw
      | a :: as =>
        simp only [splitWsAux, if_pos hsp, List.mem_cons] at hw
        rcases hw with h | h
        · subst h; simp
        · exact ih [] w h
    · match acc with
      | [] =>
        simp only [splitWsAux, if_neg hsp] at hw
        exact ih [c] w hw
      | a :: as =>
        simp only [splitWsAux, if_neg hsp] at hw
        exact ih (c :: a :: as) w hw

theorem ruleATail_ne_nil (s w : List Char) (h : ruleATail s = some w) :
    w ≠ [] := by
  intro hnil
  subst hnil
  simp only [ruleATail] at h
  split_ifs at h <;> simp_all

theorem ruleAAt_ne_nil (s w : List Char) (h : ruleAAt s = some w) : w ≠ [] := by
  simp only [ruleAAt] at h
  split_ifs at h <;> first
    | exact ruleATail_ne_nil _ _ h
    | exact absurd h (by simp)

theorem searchA_ne_nil (s w : List Char) (h : searchA s = some w) : w ≠ [] := by
  induction s with
  | nil => simp [searchA] at h
  | cons c rest ih =>
    simp only [searchA] at h
    rcases ha : ruleAAt (c :: rest) with _ | w'
    · rw [ha] at h
      exact ih h
    · rw [ha] at h
      simp only [Option.some.injEq] at h
      subst h
      exact ruleAAt_ne_nil _ _ ha

theorem ruleBAt_ne_nil (s w : List Char) (h : ruleBAt s = some w) : w ≠ [] := by
  intro hnil
  subst hnil
  simp only [ruleBAt] at h
  split_ifs at h <;> try simp at h
  rcases hr : List.dropWhile pyIsSpace (List.dropWhile Char.isDigit s)
    with _ | ⟨c, r3⟩ <;> rw [hr] at h
  · simp at h
  · split at h
    · simp at h
    · split_ifs at h <;> simp at h

theorem searchB_ne_nil (s w : List Char) (h : searchB s = some w) : w ≠ [] := by
  induction s with
  | nil => simp [searchB] at h
  | cons c rest ih =>
    simp only [searchB] at h
    rcases hb : ruleBAt (c :: rest) with _ | w'
    · rw [hb] at h
      exact ih h
    · rw [hb] at h
      simp only [Option.some.injEq] at h
      subst h
      exact ruleBAt_ne_nil _ _ hb

theorem ruleC_ne_nil (s w : List Char) (h : ruleC s = some w) : w ≠ [] := by
  have hmem : w ∈ pySplit s := List.mem_of_find?_eq_some h
  exact splitWsAux_ne_nil s [] w hmem

theorem kindChain_ne_nil (s w : List Char) (h : kindChain s = some w) : w ≠ [] := by
  simp only [kindChain] at h
  rcases ha : searchA s with _ | wa
  · rw [ha] at h
    rcases hb : searchB s with _ | wb
    · rw [hb] at h
      exact ruleC_ne_nil _ _ h
    · rw [hb] at h
      simp only [Option.some.injEq] at h
      subst h
      exact searchB_ne_nil _ _ hb
  · rw [ha] at h
    simp only [Option.some.injEq] at h
    subst h
    exact searchA_ne_nil _ _ ha

/-! ## The reconciliation diff, characterised -/

theorem contains_iff {l : List String} {u : String} :
    (l.contains u = true) ↔ u ∈ l := by
  simp [List.contains, List.elem_iff]

theorem mem_newUrlsOf {st : List (String × String)} {urls : List String}
    {u : String} : u ∈ newUrlsOf st urls ↔ u ∈ urls ∧ u ∉ keysA st := by
  simp [newUrlsOf, List.mem_filter, List.mem_dedup, contains_iff]

theorem mem_obsoleteOf {st : List (String × String)} {urls : List String}
    {u : String} : u ∈ obsoleteOf st urls ↔ u ∈ keysA st ∧ u ∉ urls := by
  simp [obsoleteOf, List.mem_filter, List.mem_dedup, contains_iff]

theorem newUrlsOf_nodup (st : List (String × String)) (urls : List String) :
    (newUrlsOf st urls).Nodup :=
  List.Nodup.filter _ (List.nodup_dedup urls)

theorem obsoleteOf_nodup (st : List (String × String)) (urls : List String)
    (h : NodupKeys st) : (obsoleteOf st urls).Nodup :=
  List.Nodup.filter _ h

/-- The post-state of one reconciliation pass, as a lookup function: an
    active reference keeps its old identifier when known and acquires the
    derived one otherwise; an inactive reference is forgotten. -/
theorem sync_lookup (base : String) (f : String → FS → FS)
    (delOk : String → Bool) (st0 : List (String × String)) (fs0 : FS)
    (urls : List String) (u : String) (hnd : NodupKeys st0) :
    lookupA (sync_content base f delOk st0 fs0 urls).state u =
      if u ∈ urls then
        (if u ∈ keysA st0 then lookupA st0 u else extract_tweet_id u)
      else none := by
  simp only [sync_content]
  by_cases hu : u ∈ urls <;> by_cases hk : u ∈ keysA st0
  · have h1 : u ∉ newUrlsOf st0 urls := fun hmem => (mem_newUrlsOf.mp hmem).2 hk
    have h2 : u ∉ obsoleteOf st0 urls := fun hmem => (mem_obsoleteOf.mp hmem).2 hu
    rw [foldObs_lookup_not_mem _ _ _ _ _ h2, foldNew_lookup_not_mem _ _ _ _ h1,
      if_pos hu, if_pos hk]
  · have h1 : u ∈ newUrlsOf st0 urls := mem_newUrlsOf.mpr ⟨hu, hk⟩
    have h2 : u ∉ obsoleteOf st0 urls := fun hmem => hk (mem_obsoleteOf.mp hmem).1
    rw [foldObs_lookup_not_mem _ _ _ _ _ h2,
      foldNew_lookup_mem _ _ _ _ h1 (newUrlsOf_nodup st0 urls), if_pos hu,
      if_neg hk]
    rcases hd : extract_tweet_id u with _ | tid
    · simpa using (lookupA_none_iff st0 u).mpr hk
    · rfl
  · have h1 : u ∉ newUrlsOf st0 urls := fun hmem => (mem_newUrlsOf.mp hmem).2 hk
    have h2 : u ∈ obsoleteOf st0 urls := mem_obsoleteOf.mpr ⟨hk, hu⟩
    rw [if_neg hu]
    exact foldObs_lookup_mem _ _ _ _ _ h2 (obsoleteOf_nodup st0 urls hnd)
      (foldNew_nodup _ _ _ hnd)
  · have h1 : u ∉ newUrlsOf st0 urls := fun hmem => hu (mem_newUrlsOf.mp hmem).1
    have h2 : u ∉ obsoleteOf st0 urls := fun hmem => hk (mem_obsoleteOf.mp hmem).1
    rw [foldObs_lookup_not_mem _ _ _ _ _ h2, foldNew_lookup_not_mem _ _ _ _ h1,
      if_neg hu]
    exact (lookupA_none_iff st0 u).mpr hk

/-- One reconciliation pass preserves key distinctness. -/
theorem sync_nodup (base : String) (f : String → FS → FS)
    (delOk : String → Bool) (st0 : List (String × String)) (fs0 : FS)
    (urls : List String) (hnd : NodupKeys st0) :
    NodupKeys (sync_content base f delOk st0 fs0 urls).state := by
  simp only [sync_content]
  exact foldObs_nodup _ _ _ _ (foldNew_nodup _ _ _ hnd)

/-- Every event of the two loops survives into the final trace. -/
theorem sync_events_mono (base : String) (f : String → FS → FS)
    (delOk : String → Bool) (st0 : List (String × String)) (fs0 : FS)
    (urls : List String) (e : Ev)
    (he : e ∈ ((obsoleteOf st0 urls).foldl (processObsolete base delOk)
      ((newUrlsOf st0 urls).foldl (processNew f) ⟨st0, fs0, []⟩)).events) :
    e ∈ (sync_content base f delOk st0 fs0 urls).events := by
  simp only [sync_content, List.mem_append]
  exact Or.inl he

/-- Shape of a successful parse: the input is not blank, the kind chain
    produced the (nonempty) kind, and the payload is `contenidoOf` of the
    working remainder. -/
theorem parse_eq_some_iff (ap : String) (r : Rotulo) :
    parse_rotulo_from_ap ap = some r ↔
      ¬(stripL ap.toList).isEmpty = true ∧
      ∃ t, kindChain (afterCanalOf ap) = some t ∧
        r = ⟨canalOf ap, String.mk t, contenidoOf (afterCanalOf ap)⟩ := by
  by_cases hblank : (stripL ap.toList).isEmpty = true
  · constructor
    · intro h
      have hb : stripL ap.data = [] := by simpa using hblank
      simp [parse_rotulo_from_ap, hb] at h
    · rintro ⟨hnb, -⟩
      exact absurd hblank hnb
  · rcases hk : kindChain (afterCanalOf ap) with _ | t
    · constructor
      · intro h
        simp [parse_rotulo_from_ap, hblank, hk] at h
      · rintro ⟨-, t', ht', -⟩
        exact Option.noConfusion ht'
    · have hne : t ≠ [] := kindChain_ne_nil _ _ hk
      have hmk : ¬ String.mk t = "" := fun hc => hne (congrArg String.data hc)
      constructor
      · intro h
        refine ⟨hblank, t, rfl, ?_⟩
        simp [parse_rotulo_from_ap, hblank, hk, hmk] at h
        exact h.2.symm
      · rintro ⟨-, t', ht', hr⟩
        injection ht' with ht2
        subst ht2
        subst hr
        have hb : ¬ stripL ap.data = [] := by simpa using hblank
        simp [parse_rotulo_from_ap, hb, hk, hmk]

/-! ## Claim theorems -/

/-- C2: for every feed watcher, a poll cycle whose listing call fails or
    returns no entries (`list_entries` yields `[]` in both cases) leaves the
    watcher's `active_urls` and its fingerprint dict `last_entries` exactly
    as they were, and processes no content (no change records). -/
theorem c2_failed_listing_preserves_watcher_state (now : Nat)
    (read : String → Option String) (regexSearch : String → String → Bool)
    (hashFn : String → Int) (apFilter wname : String) (w : WatcherSt) :
    (processW now [] read regexSearch hashFn apFilter wname w).1.activeUrls =
        w.activeUrls ∧
    (processW now [] read regexSearch hashFn apFilter wname w).1.lastEntries =
        w.lastEntries ∧
    (processW now [] read regexSearch hashFn apFilter wname w).2 = [] := by
  simp [processW]

/-- C10: `matches_ap_filter` treats the empty pattern exactly like the
    special pattern "ROTULOS" — true iff the content has at least one
    allow-listed label — and in particular does not match every entry whose
    raw tags contain the empty substring (witnessed by a tag with no valid
    label, where even a regex oracle answering true is never consulted). -/
theorem c10_empty_pattern_is_rotulos :
    (∀ (regexSearch : String → String → Bool) (content : String),
      matches_ap_filter regexSearch content "" =
          matches_ap_filter regexSearch content "ROTULOS" ∧
      matches_ap_filter regexSearch content "" = has_valid_rotulos content) ∧
    matches_ap_filter (fun _ _ => true) "<ap>123</ap>" "" = false := by
  refine ⟨fun rs c => ⟨?_, ?_⟩, ?_⟩
  · simp [matches_ap_filter]
  · simp [matches_ap_filter]
  · decide

/-- C4: `parse_rotulo_from_ap` derives the kind by the ordered fallback
    chain — rule (a) a token after a `-- <digits>:` marker, rule (b) a token
    after a run of digits, rule (c) the first word that is not numeric
    (digits after dash removal) and not a structural token — the first
    rule that succeeds determines the kind, and when no rule succeeds (or
    the tag is blank) the parse returns `none`. -/
theorem c4_kind_fallback_chain (ap : String) :
    (parse_rotulo_from_ap ap = none ↔
      (stripL ap.toList).isEmpty = true ∨ kindChain (afterCanalOf ap) = none) ∧
    ∀ r, parse_rotulo_from_ap ap = some r →
      kindChain (afterCanalOf ap) = some r.tipo.toList := by
  constructor
  · by_cases hblank : (stripL ap.toList).isEmpty = true
    · have hb : stripL ap.data = [] := by simpa using hblank
      simp [parse_rotulo_from_ap, hb]
    · rcases hk : kindChain (afterCanalOf ap) with _ | t
      · simp [parse_rotulo_from_ap, hblank, hk]
      · have hne : t ≠ [] := kindChain_ne_nil _ _ hk
        have hmk : ¬ String.mk t = "" := fun hc => hne (congrArg String.data hc)
        simp [parse_rotulo_from_ap, hblank, hk, hmk]
  · intro r hr
    obtain ⟨-, t, ht, hshape⟩ := (parse_eq_some_iff ap r).mp hr
    rw [ht, hshape]
    rfl

/-- C4 witness: a concrete successful parse whose kind comes from the
    chain. -/
theorem c4_kind_fallback_chain_witness :
    kindChain (afterCanalOf "[CG1] Faldon | 00013523: |Hola Mundo(") =
      some "Faldon".toList :=
  (c4_kind_fallback_chain "[CG1] Faldon | 00013523: |Hola Mundo(").2
    ⟨"CG1", "Faldon", "00013523:"⟩ (by decide)

/-- C1: with known state `{A: id1, B: id2}` and active references `{B, C}`,
    `sync_content` derives C's identifier, invokes the fetcher exactly for C
    and for no other reference, deletes A's recorded asset directory, and
    terminates with state `{B: id2, C: id3}`. -/
theorem c1_reconcile_scenario :
    extract_tweet_id urlC = some "333" ∧
    syncC1.events.filter isFetchEv = [Ev.fetch urlC] ∧
    Ev.delete "Descargas/111" ∈ syncC1.events ∧
    pathExists syncC1.fs "Descargas/111" = false ∧
    syncC1.state = [(urlB, "222"), (urlC, "333")] := by
  refine ⟨by decide, by decide, by decide, by decide, by decide⟩

/-- C8 counterexample: on the spec's own example tag the payload regex
    `\|([^|(]+)` captures the text after the *first* `|`, so the payload is
    "00013523:", not "Hola Mundo". -/
theorem c8_payload_counterexample :
    (parse_rotulo_from_ap "[CG1] Faldon | 00013523: |Hola Mundo(").map
        Rotulo.contenido = some "00013523:" ∧
    (parse_rotulo_from_ap "[CG1] Faldon | 00013523: |Hola Mundo(").map
        Rotulo.contenido ≠ some "Hola Mundo" := by
  refine ⟨by decide, by decide⟩

/-- C8 amended: the payload is the maximal run of characters other than `|`
    and `(` after the first `|` that is followed by at least one such
    character (whitespace-collapsed; `""` when no `|` qualifies), and on the
    example tag this yields channel "CG1", kind "Faldon" and payload
    "00013523:". -/
theorem c8_payload_amended :
    parse_rotulo_from_ap "[CG1] Faldon | 00013523: |Hola Mundo(" =
        some ⟨"CG1", "Faldon", "00013523:"⟩ ∧
    (∀ ap r, parse_rotulo_from_ap ap = some r →
      r.contenido = contenidoOf (afterCanalOf ap)) ∧
    ∀ ap, contenidoScan (afterCanalOf ap) = none →
      contenidoOf (afterCanalOf ap) = "" := by
  refine ⟨by decide, fun ap r hr => ?_, fun ap h => ?_⟩
  · obtain ⟨-, t, -, hshape⟩ := (parse_eq_some_iff ap r).mp hr
    rw [hshape]
  · simp [contenidoOf, h]

/-- C8 amended witness: the general payload law applied at the example. -/
theorem c8_payload_amended_witness :
    (Rotulo.mk "CG1" "Faldon" "00013523:").contenido =
      contenidoOf (afterCanalOf "[CG1] Faldon | 00013523: |Hola Mundo(") :=
  c8_payload_amended.2.1 "[CG1] Faldon | 00013523: |Hola Mundo("
    ⟨"CG1", "Faldon", "00013523:"⟩ (by decide)

/-- C5: during reconciliation of a new reference (one in the active list
    but unknown to the state): whatever the fetch oracle does, if an
    identifier is derivable the mapping is recorded in the final state and a
    persist (`save`) of a state carrying that mapping happens; if no
    identifier is derivable, the reference is skipped with a warning and the
    state is never mutated for it. -/
theorem c5_new_reference_recording (base : String) (f : String → FS → FS)
    (delOk : String → Bool) (st0 : List (String × String)) (fs0 : FS)
    (urls : List String) (u : String) (hnd : NodupKeys st0) (hmem : u ∈ urls)
    (hnew : lookupA st0 u = none) :
    (∀ tid, extract_tweet_id u = some tid →
      lookupA (sync_content base f delOk st0 fs0 urls).state u = some tid ∧
      ∃ s, Ev.save s ∈ (sync_content base f delOk st0 fs0 urls).events ∧
        lookupA s u = some tid) ∧
    (extract_tweet_id u = none →
      lookupA (sync_content base f delOk st0 fs0 urls).state u = none ∧
      Ev.warn u ∈ (sync_content base f delOk st0 fs0 urls).events) := by
  have hkeys : u ∉ keysA st0 := (lookupA_none_iff st0 u).mp hnew
  have hlook := sync_lookup base f delOk st0 fs0 urls u hnd
  rw [if_pos hmem, if_neg hkeys] at hlook
  have hmemnew : u ∈ newUrlsOf st0 urls := mem_newUrlsOf.mpr ⟨hmem, hkeys⟩
  constructor
  · intro tid htid
    refine ⟨by rw [hlook, htid], ?_⟩
    obtain ⟨s, hs, hsl⟩ := foldNew_save_of_mem f (newUrlsOf st0 urls)
      ⟨st0, fs0, []⟩ u tid hmemnew htid
    exact ⟨s, sync_events_mono base f delOk st0 fs0 urls _
      (foldObs_events_mono base delOk _ _ _ hs), hsl⟩
  · intro htid
    refine ⟨by rw [hlook, htid], ?_⟩
    exact sync_events_mono base f delOk st0 fs0 urls _
      (foldObs_events_mono base delOk _ _ _
        (foldNew_warn_of_mem f (newUrlsOf st0 urls) ⟨st0, fs0, []⟩ u hmemnew htid))

/-- C5 witness: concrete instances of both branches (a derivable and an
    underivable new reference). -/
theorem c5_new_reference_recording_witness :
    lookupA (sync_content "Descargas" (fun _ fs => fs) (fun _ => true) [] []
      ["https://x.com/a/status/77", "bad"]).state "https://x.com/a/status/77" =
        some "77" ∧
    lookupA (sync_content "Descargas" (fun _ fs => fs) (fun _ => true) [] []
      ["https://x.com/a/status/77", "bad"]).state "bad" = none := by
  constructor
  · exact ((c5_new_reference_recording "Descargas" (fun _ fs => fs)
      (fun _ => true) [] [] ["https://x.com/a/status/77", "bad"]
      "https://x.com/a/status/77" (by decide) (by decide) (by decide)).1
      "77" (by decide)).1
  · exact ((c5_new_reference_recording "Descargas" (fun _ fs => fs)
      (fun _ => true) [] [] ["https://x.com/a/status/77", "bad"]
      "bad" (by decide) (by decide) (by decide)).2 (by decide)).1

/-- C9: every obsolete reference (known to the state but absent from the
    active list) is removed from the state, and a persist (`save`) of a
    state no longer carrying it happens, for every deletion-success oracle —
    deletion failure never prevents the removal. -/
theorem c9_obsolete_removed_regardless (base : String) (f : String → FS → FS)
    (delOk : String → Bool) (st0 : List (String × String)) (fs0 : FS)
    (urls : List String) (u : String) (hnd : NodupKeys st0)
    (hknown : u ∈ keysA st0) (hinactive : u ∉ urls) :
    lookupA (sync_content base f delOk st0 fs0 urls).state u = none ∧
    ∃ s, Ev.save s ∈ (sync_content base f delOk st0 fs0 urls).events ∧
      lookupA s u = none := by
  constructor
  · rw [sync_lookup base f delOk st0 fs0 urls u hnd, if_neg hinactive]
  · have hobs : u ∈ obsoleteOf st0 urls := mem_obsoleteOf.mpr ⟨hknown, hinactive⟩
    obtain ⟨s, hs, hsl⟩ := foldObs_save_of_mem base delOk (obsoleteOf st0 urls)
      ((newUrlsOf st0 urls).foldl (processNew f) ⟨st0, fs0, []⟩) u hobs
      (foldNew_nodup f _ _ hnd)
    exact ⟨s, sync_events_mono base f delOk st0 fs0 urls _ hs, hsl⟩

/-- C9 witness: a known reference absent from the active list is removed
    even when the deletion oracle always fails. -/
theorem c9_obsolete_removed_regardless_witness :
    lookupA (sync_content "Descargas" (fun _ fs => fs) (fun _ => false)
      [("old", "9")] ["Descargas/9/tweet_api.json"] []).state "old" = none :=
  (c9_obsolete_removed_regardless "Descargas" (fun _ fs => fs) (fun _ => false)
    [("old", "9")] ["Descargas/9/tweet_api.json"] [] "old" (by decide)
    (by decide) (by decide)).1

/-- C3: after every reconciliation pass the last event is the full index
    rewrite, computed from the final state and filesystem; and a reference
    has a row in those index rows iff it is in the final state and its
    expected `tweet_api.json` artifact exists on disk — a state entry whose
    artifact is absent never yields a row. -/
theorem c3_index_rows_iff (base : String) (f : String → FS → FS)
    (delOk : String → Bool) (st0 : List (String × String)) (fs0 : FS)
    (urls : List String) (hnd : NodupKeys st0) :
    (sync_content base f delOk st0 fs0 urls).events.getLast? =
      some (Ev.index (indexContent base
        (sync_content base f delOk st0 fs0 urls).state
        (sync_content base f delOk st0 fs0 urls).fs)) ∧
    ∀ u p, (u, p) ∈ indexRows base (sync_content base f delOk st0 fs0 urls).state
        (sync_content base f delOk st0 fs0 urls).fs ↔
      ∃ tid, lookupA (sync_content base f delOk st0 fs0 urls).state u = some tid ∧
        p = jsonPath base tid ∧
        pathExists (sync_content base f delOk st0 fs0 urls).fs
          (jsonPath base tid) = true := by
  constructor
  · simp only [sync_content]
    exact List.getLast?_concat _
  · intro u p
    have hnd2 : NodupKeys (sync_content base f delOk st0 fs0 urls).state :=
      sync_nodup base f delOk st0 fs0 urls hnd
    constructor
    · intro hmem
      simp only [indexRows, List.mem_filterMap] at hmem
      obtain ⟨⟨u', tid⟩, hmem2, hf⟩ := hmem
      by_cases hex : pathExists (sync_content base f delOk st0 fs0 urls).fs
          (jsonPath base tid) = true
      · rw [if_pos hex] at hf
        obtain ⟨h1, h2⟩ := Prod.mk.injEq _ _ _ _ ▸ (Option.some.injEq _ _ ▸ hf)
        subst h1
        exact ⟨tid, lookupA_eq_of_mem _ _ _ hnd2 hmem2, h2.symm, hex⟩
      · rw [if_neg hex] at hf
        cases hf
    · rintro ⟨tid, hlk, hp, hex⟩
      subst hp
      simp only [indexRows, List.mem_filterMap]
      exact ⟨(u, tid), mem_of_lookupA_eq _ _ _ hlk, by rw [if_pos hex]⟩

/-- C3 witness: a state entry with a present artifact yields a row; one with
    an absent artifact does not (checked through the iff at a concrete
    run). -/
theorem c3_index_rows_iff_witness :
    ("https://x.com/a/status/5", "Descargas/5/tweet_api.json") ∈
      indexRows "Descargas"
        (sync_content "Descargas" (fun _ fs => fs) (fun _ => true)
          [("https://x.com/a/status/5", "5"), ("gone", "6")]
          ["Descargas/5/tweet_api.json"] ["https://x.com/a/status/5", "gone"]).state
        (sync_content "Descargas" (fun _ fs => fs) (fun _ => true)
          [("https://x.com/a/status/5", "5"), ("gone", "6")]
          ["Descargas/5/tweet_api.json"] ["https://x.com/a/status/5", "gone"]).fs := by
  refine ((c3_index_rows_iff "Descargas" (fun _ fs => fs) (fun _ => true)
    [("https://x.com/a/status/5", "5"), ("gone", "6")]
    ["Descargas/5/tweet_api.json"] ["https://x.com/a/status/5", "gone"]
    (by decide)).2 "https://x.com/a/status/5" "Descargas/5/tweet_api.json").mpr
    ⟨"5", by decide, by decide, by decide⟩

/-- C6 counterexample: with active set `{"x"}` (no identifier derivable from
    `"x"`) and empty initial state, the reference is not recorded by the
    first call, so the second call's new-set computation is `["x"]`, not
    empty — refuting "the new/obsolete set computations have empty results
    both times" for an arbitrary active set. -/
theorem c6_idempotence_counterexample :
    newUrlsOf (sync_content "Descargas" (fun _ fs => fs) (fun _ => true)
      [] [] ["x"]).state ["x"] = ["x"] ∧
    newUrlsOf (sync_content "Descargas" (fun _ fs => fs) (fun _ => true)
      [] [] ["x"]).state ["x"] ≠ [] := by
  refine ⟨by decide, by decide⟩

/-- C6 amended: provided an identifier is derivable from every active
    reference, a second `sync_content` with the same references and no
    external changes computes empty new/obsolete sets, leaves the state and
    filesystem untouched, performs no fetch, deletion or state persist, and
    writes index bytes identical to the first call's. -/
theorem c6_idempotence_amended (base : String) (f : String → FS → FS)
    (delOk : String → Bool) (st0 : List (String × String)) (fs0 : FS)
    (urls : List String) (hnd : NodupKeys st0)
    (hder : ∀ u ∈ urls, extract_tweet_id u ≠ none) :
    newUrlsOf (sync_content base f delOk st0 fs0 urls).state urls = [] ∧
    obsoleteOf (sync_content base f delOk st0 fs0 urls).state urls = [] ∧
    sync_content base f delOk (sync_content base f delOk st0 fs0 urls).state
        (sync_content base f delOk st0 fs0 urls).fs urls =
      ⟨(sync_content base f delOk st0 fs0 urls).state,
       (sync_content base f delOk st0 fs0 urls).fs,
       [Ev.index (indexContent base
         (sync_content base f delOk st0 fs0 urls).state
         (sync_content base f delOk st0 fs0 urls).fs)]⟩ ∧
    (sync_content base f delOk st0 fs0 urls).events.getLast? =
      some (Ev.index (indexContent base
        (sync_content base f delOk st0 fs0 urls).state
        (sync_content base f delOk st0 fs0 urls).fs)) := by
  have hlook := fun u => sync_lookup base f delOk st0 fs0 urls u hnd
  have hnew : newUrlsOf (sync_content base f delOk st0 fs0 urls).state urls
      = [] := by
    rw [newUrlsOf, List.filter_eq_nil_iff]
    intro u hu
    have hu' : u ∈ urls := List.mem_dedup.mp hu
    have hsome : (lookupA (sync_content base f delOk st0 fs0 urls).state u).isSome
        = true := by
      rw [hlook u, if_pos hu']
      by_cases hk : u ∈ keysA st0
      · rw [if_pos hk]
        exact (lookupA_isSome_iff st0 u).mpr hk
      · rw [if_neg hk]
        rcases hd : extract_tweet_id u with _ | tid
        · exact absurd hd (hder u hu')
        · rfl
    have hm : u ∈ keysA (sync_content base f delOk st0 fs0 urls).state :=
      (lookupA_isSome_iff _ u).mp hsome
    simpa using hm
  have hobs : obsoleteOf (sync_content base f delOk st0 fs0 urls).state urls
      = [] := by
    rw [obsoleteOf, List.filter_eq_nil_iff]
    intro k hk
    have hsome : (lookupA (sync_content base f delOk st0 fs0 urls).state k).isSome
        = true := (lookupA_isSome_iff _ k).mpr hk
    rw [hlook k] at hsome
    by_cases hu : k ∈ urls
    · simpa using hu
    · rw [if_neg hu] at hsome
      simp at hsome
  have hrec : ∀ (st : List (String × String)) (fsx : FS),
      newUrlsOf st urls = [] → obsoleteOf st urls = [] →
      sync_content base f delOk st fsx urls =
        ⟨st, fsx, [Ev.index (indexContent base st fsx)]⟩ := by
    intro st fsx h1 h2
    simp [sync_content, h1, h2]
  refine ⟨hnew, hobs, hrec _ _ hnew hobs, ?_⟩
  simp only [sync_content]
  exact List.getLast?_concat _

/-- C6 amended witness: a concrete derivable-reference run where the
    second call's new-set computation is empty. -/
theorem c6_idempotence_amended_witness :
    newUrlsOf (sync_content "Descargas" (fun _ fs => fs) (fun _ => true)
      [] [] ["https://x.com/a/status/77"]).state ["https://x.com/a/status/77"]
      = [] :=
  (c6_idempotence_amended "Descargas" (fun _ fs => fs) (fun _ => true) [] []
    ["https://x.com/a/status/77"] (by decide) (by decide)).1

/-- Mapping then testing `any` is testing the composite. -/
theorem any_map_comp {α β : Type} (l : List α) (g : α → β) (p : β → Bool) :
    (l.map g).any p = l.any fun a => p (g a) := by
  induction l with
  | nil => rfl
  | cons a rest ih => simp [List.any_cons, ih]

/-- A watcher's step reports "polled" exactly when it was due and
    navigation succeeded. -/
theorem pollStep_polled (navOk : String → Bool) (now : Nat)
    (listRes : String → List Entry) (read : String → String → Option String)
    (regexSearch : String → String → Bool) (hashFn : String → Int)
    (w : MWatcher) :
    (pollStep navOk now listRes read regexSearch hashFn w).2.2 =
      (isDue now w && navOk w.path) := by
  cases hx : isDue now w && navOk w.path <;> simp [pollStep, hx]

/-- Membership in the unioned reference list. -/
theorem mem_totalUrls (ws : List MWatcher) (x : String) :
    x ∈ totalUrls ws ↔ ∃ w ∈ ws, x ∈ w.st.activeUrls := by
  simp only [totalUrls, List.mem_dedup, List.mem_flatten, List.mem_map]
  constructor
  · rintro ⟨l, ⟨w, hw, rfl⟩, hx⟩
    exact ⟨w, hw, hx⟩
  · rintro ⟨w, hw, hx⟩
    exact ⟨w.st.activeUrls, ⟨w, hw, rfl⟩, hx⟩

/-- C7: in one orchestrator round, if the connection holds and at least one
    watcher polled (was due with successful navigation), the reconciliation
    engine is invoked exactly once, with the union of every watcher's
    current reference set — the post-poll set of polled watchers together
    with the last-known set of unpolled ones; if no watcher polled (or no
    connection), it is not invoked at all. -/
theorem c7_round_reconciles_once (connected : Bool) (navOk : String → Bool)
    (now : Nat) (listRes : String → List Entry)
    (read : String → String → Option String)
    (regexSearch : String → String → Bool) (hashFn : String → Int)
    (ws : List MWatcher) (base : String) (f : String → FS → FS)
    (delOk : String → Bool) (cmState : List (String × String)) (fs : FS) :
    ((connected = true ∧ ∃ w ∈ ws, (isDue now w && navOk w.path) = true) →
      (run_once connected navOk now listRes read regexSearch hashFn ws base f
          delOk cmState fs).2.2.1 =
        [totalUrls (run_once connected navOk now listRes read regexSearch
          hashFn ws base f delOk cmState fs).1] ∧
      (run_once connected navOk now listRes read regexSearch hashFn ws base f
          delOk cmState fs).2.2.2 =
        some (sync_content base f delOk cmState fs
          (totalUrls (run_once connected navOk now listRes read regexSearch
            hashFn ws base f delOk cmState fs).1)) ∧
      ∀ x, x ∈ totalUrls (run_once connected navOk now listRes read
          regexSearch hashFn ws base f delOk cmState fs).1 ↔
        ∃ w ∈ (run_once connected navOk now listRes read regexSearch hashFn ws
          base f delOk cmState fs).1, x ∈ w.st.activeUrls) ∧
    ((connected = false ∨ ∀ w ∈ ws, ¬(isDue now w && navOk w.path) = true) →
      (run_once connected navOk now listRes read regexSearch hashFn ws base f
          delOk cmState fs).2.2.1 = [] ∧
      (run_once connected navOk now listRes read regexSearch hashFn ws base f
          delOk cmState fs).2.2.2 = none) := by
  have hmap : ((ws.map (pollStep navOk now listRes read regexSearch hashFn)).any
      fun t => t.2.2) = ws.any fun w => isDue now w && navOk w.path := by
    rw [any_map_comp]
    congr 1
    funext w
    exact pollStep_polled navOk now listRes read regexSearch hashFn w
  constructor
  · rintro ⟨hconn, wx, hwx, hpoll⟩
    subst hconn
    have hany : (ws.any fun w => isDue now w && navOk w.path) = true :=
      List.any_eq_true.mpr ⟨wx, hwx, hpoll⟩
    simp only [run_once, Bool.not_true, Bool.false_eq_true, if_false, hmap,
      hany, if_true]
    exact ⟨by trivial, by trivial, fun x => mem_totalUrls _ x⟩
  · rintro (hfalse | hall)
    · subst hfalse
      simp [run_once]
    · have hany : (ws.any fun w => isDue now w && navOk w.path) = false := by
        rcases hx : ws.any fun w => isDue now w && navOk w.path with _ | _
        · rfl
        · obtain ⟨w, hw, hp⟩ := List.any_eq_true.mp hx
          exact absurd hp (hall w hw)
      cases connected with
      | false => simp [run_once]
      | true =>
        simp only [run_once, Bool.not_true, Bool.false_eq_true, if_false,
          hmap, hany]
        exact ⟨by trivial, by trivial⟩

/-- C7 witness: one due watcher with an empty listing still counts as a
    poll, so reconciliation runs exactly once with that watcher's retained
    reference set. -/
theorem c7_round_reconciles_once_witness :
    (run_once true (fun _ => true) 5 (fun _ => []) (fun _ _ => none)
      (fun _ _ => false) (fun _ => 0)
      [⟨"W1", "RUTA", 1, "", ⟨0, [], ["https://x.com/a/status/9"]⟩⟩]
      "Descargas" (fun _ fs => fs) (fun _ => true) [] []).2.2.1 =
      [totalUrls (run_once true (fun _ => true) 5 (fun _ => []) (fun _ _ => none)
        (fun _ _ => false) (fun _ => 0)
        [⟨"W1", "RUTA", 1, "", ⟨0, [], ["https://x.com/a/status/9"]⟩⟩]
        "Descargas" (fun _ fs => fs) (fun _ => true) [] []).1] :=
  ((c7_round_reconciles_once true (fun _ => true) 5 (fun _ => [])
    (fun _ _ => none) (fun _ _ => false) (fun _ => 0)
    [⟨"W1", "RUTA", 1, "", ⟨0, [], ["https://x.com/a/status/9"]⟩⟩]
    "Descargas" (fun _ fs => fs) (fun _ => true) [] []).1
    ⟨rfl, ⟨"W1", "RUTA", 1, "", ⟨0, [], ["https://x.com/a/status/9"]⟩⟩,
      by decide, by decide⟩).1

end INews
